import Mathlib

/-!
Shallow embedding of the `HttpCacheService` cache engine from
`src/angular/services/http-cache/http-cache.service.ts`, together with the
loose-value fuzzy comparer it delegates to (`COMPARERS.areBasicallyEqual`
from `library/comparers`, which is not among the provided sources and is
therefore modelled from the specification, §4.2).

The embedding is state-passing: the TypeScript class's mutable `_cache`
field becomes an explicit `HttpCacheService` record threaded through the
operations.  `console.log` output is modelled as an explicit list of
`LogLine` values emitted by the small-step operation semantics, so that
properties about what `settings.verbose` does and does not influence are
statable.
-/

set_option autoImplicit false

namespace HttpCache

/-- Modelled from the spec: the "loose value" universe of the generalized
comparer in `library/comparers` (not among the provided sources).  A loose
value is `undefined`, `null`, a string scalar, or an ordered sequence of
(name, value) pairs (covering both mapping-like objects and normalized
parameter sequences). -/
inductive LooseValue where
  | undefined : LooseValue
  | null : LooseValue
  | str : String → LooseValue
  | pairs : List (String × LooseValue) → LooseValue

/-- Modelled from the spec (§4.2 step 1): a value is "empty" if it is
`undefined`, `null`, an empty string, or a structurally empty
object/sequence. -/
def isEmptyValue : LooseValue → Bool
  | .undefined => true
  | .null => true
  | .str s => s.isEmpty
  | .pairs l => l.isEmpty

/-- Look a name up in a (name, value) pair sequence; an absent name yields
`undefined` (spec §4.2 step 3: "absent → empty"). -/
def lookupKey : List (String × LooseValue) → String → LooseValue
  | [], _ => .undefined
  | (n, v) :: rest, k => if n = k then v else lookupKey rest k

mutual

/-- Structural size of a loose value, used as recursion fuel for the deep
comparison. -/
def LooseValue.size : LooseValue → Nat
  | .undefined => 1
  | .null => 1
  | .str _ => 1
  | .pairs l => 1 + sizeOfPairsList l

/-- Structural size of a (name, value) pair sequence. -/
def sizeOfPairsList : List (String × LooseValue) → Nat
  | [] => 0
  | (_, v) :: rest => 1 + LooseValue.size v + sizeOfPairsList rest

end

/-- Modelled from the spec (§4.2 steps 1–3), fuel-indexed so that the
definition is structurally recursive and kernel-computable.  Two values are
equal if both are empty, or both are non-empty and compare equal under a
deep, order-insensitive structural comparison: nested pair-sequences
compare per-name over the union of their names, scalars compare by value.
The fuel-exhausted branch is unreachable when the fuel is at least
`a.size + b.size` (see `valuesBasicallyEqualAux_fuel`). -/
def valuesBasicallyEqualAux : Nat → LooseValue → LooseValue → Bool
  | 0, a, b => isEmptyValue a && isEmptyValue b
  | fuel + 1, a, b =>
    if isEmptyValue a then isEmptyValue b
    else if isEmptyValue b then false
    else
      match a, b with
      | .str s, .str t => s == t
      | .pairs la, .pairs lb =>
        (la.map Prod.fst ++ lb.map Prod.fst).all fun k =>
          valuesBasicallyEqualAux fuel (lookupKey la k) (lookupKey lb k)
      | _, _ => false

/-- Deep order-insensitive loose equality of two values, with enough fuel
for the recursion to run to completion. -/
def valuesBasicallyEqual (a b : LooseValue) : Bool :=
  valuesBasicallyEqualAux (a.size + b.size) a b

/-- The parameter names of a loose value: a pair sequence contributes its
names, anything else (in particular `undefined`) contributes none. -/
def keysOf : LooseValue → List String
  | .pairs l => l.map Prod.fst
  | _ => []

/-- Per-name lookup on a loose value; non-sequences have no names, so every
lookup on them is `undefined`. -/
def getLoose : LooseValue → String → LooseValue
  | .pairs l, k => lookupKey l k
  | _, _ => .undefined

/-- Modelled from the spec (§4.2): `areBasicallyEqual(a, b)` builds the
union of the parameter names present in `a` and `b` and compares, for each
name in the union, the two looked-up values (absent → empty) with the deep
loose comparison.  `undefined` has no names, so `undefined` vs `undefined`
or vs an empty sequence is equal, while `undefined` vs a sequence with a
non-emptily-valued name is not (§4.2 step 5). -/
def areBasicallyEqual (a b : LooseValue) : Bool :=
  (keysOf a ++ keysOf b).all fun k => valuesBasicallyEqual (getLoose a k) (getLoose b k)

/-- Angular's `HttpParams` multi-valued parameter container, modelled by
its observable API surface: an ordered association of parameter names to
lists of values, where `keys()` lists the names and `get(name)` returns the
first value recorded for the name (or none). -/
structure HttpParams where
  entries : List (String × List String)

/-- The accessor `HttpParams.keys()`: the parameter names, in order. -/
def HttpParams.keys (p : HttpParams) : List String :=
  p.entries.map Prod.fst

/-- The accessor `HttpParams.get(name)`: the first value for the name, if any. -/
def HttpParams.get (p : HttpParams) (k : String) : Option String :=
  match p.entries.find? (fun e => e.1 == k) with
  | some e => e.2.head?
  | none => none

/-- A `RawParams` mapping (plain name → value object), carried with loose
values so nested structures are representable. -/
def RawParams := List (String × LooseValue)

/-- The `HttpParams | RawParams | undefined` union type that the cache's
parameter-handling methods accept. -/
inductive ParamsInput where
  | undefined : ParamsInput
  | raw : RawParams → ParamsInput
  | http : HttpParams → ParamsInput

/-- The normalizer `convertHttpParamsToLooseValue` (http-cache.service.ts:181-187): an
`HttpParams` container is flattened to one (name, value) pair per key,
using `params.get(key)!` — i.e. the single-value accessor, so a key with
multiple values surfaces only its first; a `get` miss surfaces the runtime
`null` behind the non-null assertion.  Any other input (a raw mapping, or
`undefined`) is returned unchanged. -/
def convertHttpParamsToLooseValue : ParamsInput → LooseValue
  | .http p =>
    .pairs (p.keys.map fun k =>
      (k, match p.get k with
          | some s => LooseValue.str s
          | none => LooseValue.null))
  | .raw l => .pairs l
  | .undefined => .undefined

/-- The comparison `paramsAreBasicallyEqual` (http-cache.service.ts:137-141): normalize
both parameter inputs to loose values and compare them with the loose
comparer. -/
def paramsAreBasicallyEqual (params1 params2 : ParamsInput) : Bool :=
  areBasicallyEqual (convertHttpParamsToLooseValue params1)
    (convertHttpParamsToLooseValue params2)

/-- The helper `hasParams` (http-cache.service.ts:124-126): literally
`params === undefined || params.keys().length > 0`. -/
def hasParams : Option HttpParams → Bool
  | none => true
  | some p => p.keys.length > 0

/-- The cache settings record (`IHttpCacheSettings`). -/
structure IHttpCacheSettings where
  enableInterceptor : Bool
  shouldCacheAuthorization : Bool
  verbose : Bool

/-- Angular's `HttpEventType` enumeration; `insert` accepts only
`.response` events. -/
inductive HttpEventType where
  | sent
  | uploadProgress
  | responseHeader
  | downloadProgress
  | response
  | user
deriving DecidableEq

/-- An `HttpEvent`: its event type, plus an opaque payload standing for the
response snapshot contents the cache stores but never inspects. -/
structure HttpEvent where
  type : HttpEventType
  payload : Nat

/-- An `HttpRequest`, restricted to the fields the cache keys on. -/
structure HttpRequest where
  method : String
  url : String
  params : ParamsInput

/-- A cache entry (`IHttpCacheItem`): the request and its stored response. -/
structure IHttpCacheItem where
  request : HttpRequest
  response : HttpEvent

/-- The service state: the injected settings and the private `_cache`
array. -/
structure HttpCacheService where
  settings : IHttpCacheSettings
  cache : List IHttpCacheItem

/-- The argument of `find`/`has`/`bust`: either a full `HttpRequest`, or
the decomposed `(method, url, params)` triple.  The triple's `url` is an
`Option` because the TypeScript unified signature lets it be `undefined`
(the malformed-descriptor case guarded at http-cache.service.ts:59-61). -/
inductive FindArg where
  | byRequest : HttpRequest → FindArg
  | byTriple : String → Option String → ParamsInput → FindArg

/-- The method a `FindArg` carries. -/
def FindArg.method : FindArg → String
  | .byRequest r => r.method
  | .byTriple m _ _ => m

/-- The URL a `FindArg` carries, `none` when the triple form has an
`undefined` URL. -/
def FindArg.urlOpt : FindArg → Option String
  | .byRequest r => some r.url
  | .byTriple _ u _ => u

/-- The params a `FindArg` carries (`.undefined` when omitted). -/
def FindArg.params : FindArg → ParamsInput
  | .byRequest r => r.params
  | .byTriple _ _ p => p

/-- The predicate of the `this.cache.find(...)` callback
(http-cache.service.ts:62-67): reject unless method and URL are exactly
equal, then compare params with the fuzzy comparer. -/
def matchesItem (method url : String) (params : ParamsInput)
    (item : IHttpCacheItem) : Bool :=
  if item.request.method != method || item.request.url != url then false
  else paramsAreBasicallyEqual params item.request.params

/-- The method `find` (http-cache.service.ts:52-69): resolve the overload to a
(method, url?, params) descriptor; an `undefined` URL returns `null`;
otherwise scan the cache in order for the first entry matching
`matchesItem`, yielding `null` (`none`) when the scan misses. -/
def HttpCacheService.find (svc : HttpCacheService) (arg : FindArg) :
    Option IHttpCacheItem :=
  match arg.urlOpt with
  | none => none
  | some url => svc.cache.find? (matchesItem arg.method url arg.params)

/-- The method `has` (http-cache.service.ts:78-88): the triple overload returns
`false` outright on an `undefined` URL; otherwise `find !== null`. -/
def HttpCacheService.has (svc : HttpCacheService) (arg : FindArg) : Bool :=
  match arg with
  | .byTriple _ none _ => false
  | _ => (svc.find arg).isSome

/-- The factory `createHttpCacheItem` (http-cache.service.ts:112-117). -/
def createHttpCacheItem (request : HttpRequest) (response : HttpEvent) :
    IHttpCacheItem :=
  { request := request, response := response }

/-- The method `insert` (http-cache.service.ts:95-103): return unchanged unless the
event's type is `Response`; otherwise push one new item onto the end of the
cache (the `verbose` branch only logs, see `step`). -/
def HttpCacheService.insert (svc : HttpCacheService) (request : HttpRequest)
    (response : HttpEvent) : HttpCacheService :=
  if response.type != HttpEventType.response then svc
  else { svc with cache := svc.cache ++ [createHttpCacheItem request response] }

/-- The method `bust` (http-cache.service.ts:152-179).  With no argument, `_cache`
is reset to `[]`.  With a descriptor, `find` runs first; a miss is a no-op;
on a hit the code keeps `filter(cacheItem => cacheItem !== item)` where
`!==` is reference inequality and `item` is the first matching entry.
Every slot of the array holds a distinct object (each `insert` allocates a
fresh item), so exactly the slot of that first match is dropped; an
earlier slot structurally equal to the match cannot exist, because it
would itself have been the first match.  `List.eraseP` — drop the first
entry satisfying the predicate — is therefore the exact translation. -/
def HttpCacheService.bust (svc : HttpCacheService) (arg : Option FindArg) :
    HttpCacheService :=
  match arg with
  | none => { svc with cache := [] }
  | some a =>
    match a.urlOpt with
    | none => svc
    | some url =>
      if (svc.cache.find? (matchesItem a.method url a.params)).isSome then
        { svc with cache := svc.cache.eraseP (matchesItem a.method url a.params) }
      else svc

/-- A diagnostic log line, as emitted by the `console.log` calls that
`settings.verbose` gates. -/
inductive LogLine where
  | cachingResults : String → String → ParamsInput → LogLine
  | bustingAll : LogLine
  | bustingOne : String → Option String → ParamsInput → LogLine

/-- A public cache operation. -/
inductive Op where
  | findOp : FindArg → Op
  | hasOp : FindArg → Op
  | insertOp : HttpRequest → HttpEvent → Op
  | bustOp : Option FindArg → Op

/-- The value an operation returns to its caller. -/
inductive OpResult where
  | foundItem : Option IHttpCacheItem → OpResult
  | hasResult : Bool → OpResult
  | unit : OpResult

/-- One public operation as a step of the service: the successor state, the
returned value, and the diagnostic log lines emitted (`find`/`has` never
touch the state or the log; `insert`/`bust` log exactly when they mutate
and `settings.verbose` is set, mirroring http-cache.service.ts:99-101,
154-156, 165-167, 175-177). -/
def step (svc : HttpCacheService) : Op → HttpCacheService × OpResult × List LogLine
  | .findOp a => (svc, .foundItem (svc.find a), [])
  | .hasOp a => (svc, .hasResult (svc.has a), [])
  | .insertOp r e =>
    (svc.insert r e, .unit,
      if e.type == HttpEventType.response && svc.settings.verbose then
        [.cachingResults r.method r.url r.params]
      else [])
  | .bustOp none =>
    (svc.bust none, .unit, if svc.settings.verbose then [.bustingAll] else [])
  | .bustOp (some a) =>
    (svc.bust (some a), .unit,
      if (svc.find a).isSome && svc.settings.verbose then
        [.bustingOne a.method a.urlOpt a.params]
      else [])

/-- Run a sequence of operations from a state, collecting the results and
the log. -/
def runOps (svc : HttpCacheService) : List Op → HttpCacheService × List OpResult × List LogLine
  | [] => (svc, [], [])
  | op :: ops =>
    let r := step svc op
    let rest := runOps r.1 ops
    (rest.1, r.2.1 :: rest.2.1, r.2.2 ++ rest.2.2)

/-! ### Concrete fixtures used by the witness theorems -/

/-- Default-shaped settings with `verbose := false`. -/
def settingsW : IHttpCacheSettings := ⟨true, false, false⟩

/-- A concrete request: `GET /users?active=true`. -/
def reqW : HttpRequest := ⟨"GET", "/users", .raw [("active", .str "true")]⟩

/-- A first stored entry for `GET /users?active=true`. -/
def entryW1 : IHttpCacheItem := ⟨reqW, ⟨.response, 1⟩⟩

/-- A second stored entry whose descriptor is fuzzy-equal to `entryW1`'s
(it adds an empty-valued `x` parameter). -/
def entryW2 : IHttpCacheItem :=
  ⟨⟨"GET", "/users", .raw [("active", .str "true"), ("x", .str "")]⟩, ⟨.response, 2⟩⟩

/-- The decomposed descriptor matching both entries. -/
def argW : FindArg := .byTriple "GET" (some "/users") (.raw [("active", .str "true")])

/-- A service holding the two fuzzy-equal entries, first `entryW1` then
`entryW2`. -/
def svcW : HttpCacheService := ⟨settingsW, [entryW1, entryW2]⟩

/-- A multi-valued container: `a` has two values, `b` has none. -/
def paramsW : HttpParams := ⟨[("a", ["1", "2"]), ("b", [])]⟩

/-! ### Helper lemmas -/

theorem LooseValue.size_pos (a : LooseValue) : 1 ≤ a.size := by
  cases a <;> simp [LooseValue.size]

theorem lookupKey_size (la : List (String × LooseValue)) (k : String)
    (h : la ≠ []) : (lookupKey la k).size + 1 ≤ sizeOfPairsList la := by
  induction la with
  | nil => exact absurd rfl h
  | cons hd tl ih =>
    obtain ⟨n, v⟩ := hd
    by_cases hk : n = k
    · simp only [lookupKey, if_pos hk, sizeOfPairsList]
      omega
    · simp only [lookupKey, if_neg hk, sizeOfPairsList]
      cases tl with
      | nil =>
        simp only [lookupKey, LooseValue.size, sizeOfPairsList]
        have := LooseValue.size_pos v
        omega
      | cons hd2 tl2 =>
        have := ih (by simp)
        omega

theorem list_all_congr {α : Type} {l : List α} {p q : α → Bool}
    (h : ∀ x ∈ l, p x = q x) : l.all p = l.all q := by
  induction l with
  | nil => rfl
  | cons x xs ih =>
    simp only [List.all_cons]
    rw [h x (by simp), ih fun y hy => h y (by simp [hy])]

/-- Any fuel at least `a.size + b.size` computes the same comparison as the
canonical fuel, so the fuel-exhausted branch of `valuesBasicallyEqualAux`
is unreachable and `valuesBasicallyEqual` is fuel-independent. -/
theorem valuesBasicallyEqualAux_fuel :
    ∀ f (a b : LooseValue), a.size + b.size ≤ f →
      valuesBasicallyEqualAux f a b = valuesBasicallyEqual a b := by
  intro f
  induction f using Nat.strong_induction_on with
  | _ f ih =>
    intro a b hf
    have ha := a.size_pos
    have hb := b.size_pos
    obtain ⟨f', rfl⟩ : ∃ f', f = f' + 1 := ⟨f - 1, by omega⟩
    obtain ⟨s, hs⟩ : ∃ s, a.size + b.size = s + 1 := ⟨a.size + b.size - 1, by omega⟩
    unfold valuesBasicallyEqual
    rw [hs]
    simp only [valuesBasicallyEqualAux]
    by_cases hea : isEmptyValue a = true
    · simp [hea]
    · by_cases heb : isEmptyValue b = true
      · simp [hea, heb]
      · simp only [hea, heb, Bool.false_eq_true, if_false]
        cases a with
        | pairs la =>
          cases b with
          | pairs lb =>
            have hla : la ≠ [] := by
              intro hnil
              simp [isEmptyValue, hnil] at hea
            have hlb : lb ≠ [] := by
              intro hnil
              simp [isEmptyValue, hnil] at heb
            have hsa : LooseValue.size (.pairs la) = 1 + sizeOfPairsList la := rfl
            have hsb : LooseValue.size (.pairs lb) = 1 + sizeOfPairsList lb := rfl
            refine list_all_congr fun k _ => ?_
            have bla := lookupKey_size la k hla
            have blb := lookupKey_size lb k hlb
            have hrec : (lookupKey la k).size + (lookupKey lb k).size ≤ f' := by
              omega
            have hrec2 : (lookupKey la k).size + (lookupKey lb k).size ≤ s := by
              omega
            rw [ih f' (by omega) _ _ hrec, ih s (by omega) _ _ hrec2]
          | undefined => rfl
          | null => rfl
          | str t => rfl
        | undefined => rfl
        | null => rfl
        | str sv => cases b <;> rfl

/-! ### Claim theorems -/

/-- C1: for every request and response event, `insert` is a no-op (the
store is unchanged) unless the response is the complete, successful
terminal `Response` event; when it is, `insert` appends exactly one new
entry to the end of the store, unconditionally, for every store state —
in particular without consulting `find` or any fuzzy-equality check
first. -/
theorem insert_gating (svc : HttpCacheService) (r : HttpRequest) (e : HttpEvent) :
    (e.type ≠ HttpEventType.response → svc.insert r e = svc) ∧
    (e.type = HttpEventType.response →
      (svc.insert r e).cache = svc.cache ++ [createHttpCacheItem r e] ∧
      (svc.insert r e).settings = svc.settings) := by
  constructor
  · intro h
    simp [HttpCacheService.insert, h]
  · intro h
    simp [HttpCacheService.insert, h]

/-- Witness for C1: a progress event leaves a concrete store unchanged,
and a terminal response appends exactly one entry to it. -/
theorem insert_gating_witness :
    HttpCacheService.insert ⟨settingsW, []⟩ reqW ⟨HttpEventType.downloadProgress, 0⟩ =
      ⟨settingsW, []⟩ ∧
    (svcW.insert reqW ⟨HttpEventType.response, 3⟩).cache =
      svcW.cache ++ [createHttpCacheItem reqW ⟨HttpEventType.response, 3⟩] :=
  ⟨(insert_gating ⟨settingsW, []⟩ reqW ⟨HttpEventType.downloadProgress, 0⟩).1 (by decide),
   ((insert_gating svcW reqW ⟨HttpEventType.response, 3⟩).2 rfl).1⟩

/-- C2: for a descriptor carrying a URL, `find` returns `some e` exactly
when `e` is the first entry, in insertion order, whose method and URL are
string-equal to the descriptor's and whose params are fuzzy-equal to the
descriptor's; it returns `none` exactly when no entry matches.  The match
predicate is characterized as exact method/URL equality plus
`paramsAreBasicallyEqual`. -/
theorem find_first_match (svc : HttpCacheService) (arg : FindArg) (url : String)
    (h : arg.urlOpt = some url) :
    (∀ e, svc.find arg = some e ↔
      ∃ l1 l2, svc.cache = l1 ++ e :: l2 ∧
        matchesItem arg.method url arg.params e = true ∧
        ∀ x ∈ l1, matchesItem arg.method url arg.params x = false) ∧
    (svc.find arg = none ↔
      ∀ x ∈ svc.cache, matchesItem arg.method url arg.params x = false) ∧
    (∀ item, matchesItem arg.method url arg.params item = true ↔
      item.request.method = arg.method ∧ item.request.url = url ∧
        paramsAreBasicallyEqual arg.params item.request.params = true) := by
  refine ⟨?_, ?_, ?_⟩
  · intro e
    simp only [HttpCacheService.find, h]
    rw [List.find?_eq_some]
    constructor
    · rintro ⟨hp, l1, l2, hsplit, hall⟩
      exact ⟨l1, l2, hsplit, hp, fun x hx => by simpa using hall x hx⟩
    · rintro ⟨l1, l2, hsplit, hp, hall⟩
      exact ⟨hp, l1, l2, hsplit, fun x hx => by simpa using hall x hx⟩
  · simp only [HttpCacheService.find, h]
    rw [List.find?_eq_none]
    constructor
    · intro hall x hx
      simpa using hall x hx
    · intro hall x hx
      simpa using hall x hx
  · intro item
    simp only [matchesItem]
    by_cases h1 : item.request.method = arg.method
    · by_cases h2 : item.request.url = url
      · simp [h1, h2]
      · simp [h1, h2]
    · simp [h1]

/-- Witness for C2: with two fuzzy-equal entries inserted `entryW1` then
`entryW2`, `find` returns the first-inserted `entryW1`. -/
theorem find_first_match_witness : svcW.find argW = some entryW1 :=
  ((find_first_match svcW argW "/users" rfl).1 entryW1).mpr
    ⟨[], [entryW2], rfl, by decide, by simp⟩

/-- C3: `bust(descriptor)` computes `find(descriptor)`; on a miss the
service is left completely unchanged, and on a hit exactly the first
matching entry is removed while every entry before and after it — fuzzy
duplicates included — is kept in order. -/
theorem bust_removes_first (svc : HttpCacheService) (arg : FindArg) :
    (svc.find arg = none → svc.bust (some arg) = svc) ∧
    (∀ e url, arg.urlOpt = some url → svc.find arg = some e →
      ∃ l1 l2, svc.cache = l1 ++ e :: l2 ∧
        (∀ x ∈ l1, matchesItem arg.method url arg.params x = false) ∧
        (svc.bust (some arg)).cache = l1 ++ l2 ∧
        (svc.bust (some arg)).settings = svc.settings) := by
  constructor
  · intro hnone
    cases hu : arg.urlOpt with
    | none => simp [HttpCacheService.bust, hu]
    | some url =>
      simp only [HttpCacheService.find, hu] at hnone
      simp [HttpCacheService.bust, hu, hnone]
  · intro e url hu hfind
    simp only [HttpCacheService.find, hu] at hfind
    obtain ⟨hp, l1, l2, hsplit, hall⟩ := List.find?_eq_some.mp hfind
    refine ⟨l1, l2, hsplit, fun x hx => by simpa using hall x hx, ?_, ?_⟩
    · simp only [HttpCacheService.bust, hu, hfind, Option.isSome_some, if_true]
      rw [hsplit, List.eraseP_append_right _ (fun b hb => by simpa using hall b hb),
        List.eraseP_cons_of_pos hp]
    · simp [HttpCacheService.bust, hu, hfind]

/-- Witness for C3: busting the descriptor shared by the two fuzzy-equal
entries of `svcW` removes the first-inserted `entryW1` and keeps
`entryW2`. -/
theorem bust_removes_first_witness :
    ∃ l1 l2, svcW.cache = l1 ++ entryW1 :: l2 ∧
      (∀ x ∈ l1, matchesItem argW.method "/users" argW.params x = false) ∧
      (svcW.bust (some argW)).cache = l1 ++ l2 ∧
      (svcW.bust (some argW)).settings = svcW.settings :=
  (bust_removes_first svcW argW).2 entryW1 "/users" rfl rfl

/-- C4: `bust()` with no descriptor empties the store — the entry sequence
becomes `[]`, any subsequent `find` misses — and the settings are kept. -/
theorem bust_all_clears (svc : HttpCacheService) (arg : FindArg) :
    (svc.bust none).cache = [] ∧ (svc.bust none).find arg = none ∧
    (svc.bust none).settings = svc.settings := by
  refine ⟨rfl, ?_, rfl⟩
  cases harg : arg.urlOpt <;> simp [HttpCacheService.find, HttpCacheService.bust, harg]

/-- C5: per-key absence/emptiness equivalence of the params comparison —
no-params fuzzy-equals `{foo: ""}` in both directions; `{foo: "bar"}`
fuzzy-equals neither `{foo: ""}` nor a params set without `foo`;
`undefined` equals `undefined` and the empty sequence, but not a sequence
holding a non-emptily-valued key. -/
theorem params_fuzzy_equality_cases :
    paramsAreBasicallyEqual .undefined (.raw [("foo", .str "")]) = true ∧
    paramsAreBasicallyEqual (.raw [("foo", .str "")]) .undefined = true ∧
    paramsAreBasicallyEqual (.raw [("foo", .str "bar")]) (.raw [("foo", .str "")]) = false ∧
    paramsAreBasicallyEqual (.raw [("foo", .str "")]) (.raw [("foo", .str "bar")]) = false ∧
    paramsAreBasicallyEqual (.raw [("foo", .str "bar")]) (.raw []) = false ∧
    paramsAreBasicallyEqual (.raw []) (.raw [("foo", .str "bar")]) = false ∧
    paramsAreBasicallyEqual .undefined .undefined = true ∧
    paramsAreBasicallyEqual .undefined (.raw []) = true ∧
    paramsAreBasicallyEqual (.raw []) .undefined = true ∧
    paramsAreBasicallyEqual .undefined (.raw [("foo", .str "bar")]) = false ∧
    paramsAreBasicallyEqual (.raw [("foo", .str "bar")]) .undefined = false := by
  decide

/-- C6: lookup is total on malformed descriptors — a triple with an
`undefined` URL (and hence no request object to derive one from) makes
`find` return `none` and `has` return `false`, for every store state. -/
theorem lookup_total_on_undefined_url (svc : HttpCacheService) (m : String)
    (p : ParamsInput) :
    svc.find (.byTriple m none p) = none ∧ svc.has (.byTriple m none p) = false :=
  ⟨rfl, rfl⟩

/-- C7: `find` and `has` never mutate the store — as operations of the
step semantics they return the state unchanged and emit no log — their
results are exactly `find`/`has` of the current state, and repeating
`find` on the resulting state yields the same result. -/
theorem lookup_side_effect_free (svc : HttpCacheService) (a : FindArg) :
    (step svc (.findOp a)).1 = svc ∧
    (step svc (.hasOp a)).1 = svc ∧
    (step svc (.findOp a)).2 = (.foundItem (svc.find a), []) ∧
    (step svc (.hasOp a)).2 = (.hasResult (svc.has a), []) ∧
    (step (step svc (.findOp a)).1 (.findOp a)).2.1 = (step svc (.findOp a)).2.1 ∧
    (step (step svc (.hasOp a)).1 (.hasOp a)).2.1 = (step svc (.hasOp a)).2.1 :=
  ⟨rfl, rfl, rfl, rfl, rfl, rfl⟩

/-- C8: `hasParams` returns `true` exactly when params is `undefined` or
has at least one key, and `false` exactly when it is a defined container
with zero keys. -/
theorem hasParams_spec (p : Option HttpParams) :
    (hasParams p = true ↔ p = none ∨ ∃ q, p = some q ∧ 0 < q.keys.length) ∧
    (hasParams p = false ↔ ∃ q, p = some q ∧ q.keys.length = 0) := by
  cases p with
  | none => simp [hasParams]
  | some q =>
    constructor
    · constructor
      · intro ht
        refine Or.inr ⟨q, rfl, ?_⟩
        simpa [hasParams] using ht
      · rintro (hnone | ⟨q', hq, hlen⟩)
        · exact absurd hnone (by simp)
        · injection hq with hq'
          subst hq'
          simpa [hasParams] using hlen
    · constructor
      · intro hf
        refine ⟨q, rfl, ?_⟩
        rcases Nat.eq_zero_or_pos q.keys.length with h0 | hpos
        · exact h0
        · simp [hasParams, hpos] at hf
      · rintro ⟨q', hq, hlen⟩
        injection hq with hq'
        subst hq'
        simp [hasParams, hlen]

/-- C9: the key normalizer maps a multi-valued container to exactly one
(name, value) pair per key — the value being the container's single-value
accessor result for that key, so at most one representative value per key
is surfaced — maps `undefined` to `undefined` (which is distinct from
every pair sequence, the empty one included), and passes a raw mapping
through unchanged. -/
theorem normalizer_spec :
    (∀ p : HttpParams, ∃ l, convertHttpParamsToLooseValue (.http p) = .pairs l ∧
      l.map Prod.fst = p.keys ∧
      ∀ kv ∈ l, kv.2 = (match p.get kv.1 with
        | some s => LooseValue.str s
        | none => LooseValue.null)) ∧
    convertHttpParamsToLooseValue .undefined = .undefined ∧
    (∀ l, convertHttpParamsToLooseValue .undefined ≠ LooseValue.pairs l) ∧
    (∀ l, convertHttpParamsToLooseValue (.raw l) = .pairs l) ∧
    convertHttpParamsToLooseValue (.http ⟨[("a", ["1", "2"])]⟩) =
      .pairs [("a", .str "1")] := by
  refine ⟨?_, rfl, ?_, fun l => rfl, rfl⟩
  · intro p
    refine ⟨_, rfl, ?_, ?_⟩
    · rw [List.map_map]
      exact List.map_id p.keys
    · intro kv hkv
      simp only [List.mem_map] at hkv
      obtain ⟨k, hk, rfl⟩ := hkv
      rfl
  · intro l h
    exact LooseValue.noConfusion h

/-- Witness for C9: the normalized form of the concrete container
`paramsW` (key `a` with two values, key `b` with none). -/
theorem normalizer_spec_witness :
    ∃ l, convertHttpParamsToLooseValue (.http paramsW) = .pairs l ∧
      l.map Prod.fst = paramsW.keys ∧
      ∀ kv ∈ l, kv.2 = (match paramsW.get kv.1 with
        | some s => LooseValue.str s
        | none => LooseValue.null) :=
  normalizer_spec.1 paramsW

/-- The lookup `find` reads only the cache sequence: services with equal caches agree
on `find`. -/
theorem find_cache_only (s1 s2 : HttpCacheService) (h : s1.cache = s2.cache)
    (a : FindArg) : s1.find a = s2.find a := by
  cases ha : a.urlOpt <;> simp [HttpCacheService.find, ha, h]

/-- The lookup `has` reads only the cache sequence. -/
theorem has_cache_only (s1 s2 : HttpCacheService) (h : s1.cache = s2.cache)
    (a : FindArg) : s1.has a = s2.has a := by
  cases a with
  | byRequest r => simp [HttpCacheService.has, find_cache_only s1 s2 h]
  | byTriple m u p =>
    cases u with
    | none => rfl
    | some url => simp [HttpCacheService.has, find_cache_only s1 s2 h]

/-- A single step's state change and returned value depend only on the
cache sequence, never on the settings; the settings themselves are
untouched. -/
theorem step_agree (op : Op) (s1 s2 : HttpCacheService) (h : s1.cache = s2.cache) :
    (step s1 op).1.cache = (step s2 op).1.cache ∧
    (step s1 op).2.1 = (step s2 op).2.1 ∧
    (step s1 op).1.settings = s1.settings := by
  cases op with
  | findOp a =>
    exact ⟨h, by simp [step, find_cache_only s1 s2 h a], rfl⟩
  | hasOp a =>
    exact ⟨h, by simp [step, has_cache_only s1 s2 h a], rfl⟩
  | insertOp r e =>
    refine ⟨?_, rfl, ?_⟩
    · simp only [step, HttpCacheService.insert]
      split <;> simp [h]
    · simp only [step, HttpCacheService.insert]
      split <;> rfl
  | bustOp oa =>
    cases oa with
    | none => exact ⟨rfl, rfl, rfl⟩
    | some a =>
      refine ⟨?_, rfl, ?_⟩
      · cases ha : a.urlOpt with
        | none => simp [step, HttpCacheService.bust, ha, h]
        | some url =>
          simp only [step, HttpCacheService.bust, ha, h]
          split <;> simp [h]
      · cases ha : a.urlOpt with
        | none => simp [step, HttpCacheService.bust, ha]
        | some url =>
          simp only [step, HttpCacheService.bust, ha]
          split <;> rfl

/-- Running any operation sequence from cache-equal states produces
cache-equal states and identical result lists. -/
theorem runOps_agree (ops : List Op) (s1 s2 : HttpCacheService)
    (h : s1.cache = s2.cache) :
    (runOps s1 ops).1.cache = (runOps s2 ops).1.cache ∧
    (runOps s1 ops).2.1 = (runOps s2 ops).2.1 := by
  induction ops generalizing s1 s2 with
  | nil => exact ⟨h, rfl⟩
  | cons op ops ih =>
    have hs := step_agree op s1 s2 h
    have hrest := ih (step s1 op).1 (step s2 op).1 hs.1
    simp only [runOps]
    exact ⟨hrest.1, by rw [hs.2.1, hrest.2]⟩

/-- C10: `settings.verbose` does not influence cache contents or results —
for every operation sequence run from the same initial cache with settings
differing only in `verbose`, the final cache and the full list of returned
values coincide (`verbose` gates only the diagnostic log). -/
theorem verbose_noninterference (ops : List Op) (c : List IHttpCacheItem)
    (st : IHttpCacheSettings) (v1 v2 : Bool) :
    (runOps ⟨{ st with verbose := v1 }, c⟩ ops).1.cache =
      (runOps ⟨{ st with verbose := v2 }, c⟩ ops).1.cache ∧
    (runOps ⟨{ st with verbose := v1 }, c⟩ ops).2.1 =
      (runOps ⟨{ st with verbose := v2 }, c⟩ ops).2.1 :=
  runOps_agree ops _ _ rfl

end HttpCache
